import Mathlib

/-!
Shallow embedding of the I8080-Microkernel enhanced emulator
(src/emulator_enhanced.h, src/emulator_enhanced.cpp, src/8080emuCPP.h).

Machine integers are modelled as `Nat` with explicit `% 2^w` at the points
where the C++ code performs a narrowing cast or wrapping arithmetic.
Fallible member functions (which throw `EmulatorException` in C++) are
modelled in `Except`: an `.error` result corresponds to a throw, and since
every throw site in the modelled functions occurs before any mutation,
an `.error` result leaves the modelled state unchanged by construction.
-/

namespace I8080

/-- Error codes of `EmulatorException` (emulator_enhanced.h), together with
the message string passed at each throw site, which distinguishes the sites. -/
inductive EmuErr where
  | memoryAccessViolation (msg : String)
  | invalidInterrupt (msg : String)
  | invalidOpcode (msg : String)
deriving DecidableEq, Repr

/-! ## Interrupt controller (`InterruptController`) -/

/-- `InterruptController::InterruptRequest`: vector byte, priority, pending bit. -/
structure InterruptRequest where
  code : Nat
  priority : Nat
  pending : Bool
deriving DecidableEq, Repr

/-- The controller's `std::queue<InterruptRequest> int_queue`, front at the head. -/
abbrev IntQueue := List InterruptRequest

/-- `InterruptController::queueInterrupt`: constructs `{code, priority, true}`
and pushes it at the back of the queue. -/
def queueInterrupt (q : IntQueue) (code priority : Nat) : IntQueue :=
  q ++ [⟨code, priority, true⟩]

/-- `InterruptController::getNextInterrupt`: throws `INVALID_INTERRUPT`
("No pending interrupts") on an empty queue, otherwise takes `front()`,
pops it, and returns it. Modelled as returning the popped request together
with the remaining queue. -/
def getNextInterrupt (q : IntQueue) : Except EmuErr (InterruptRequest × IntQueue) :=
  match q with
  | [] => .error (.invalidInterrupt "No pending interrupts")
  | r :: rest => .ok (r, rest)

/-- `InterruptController::hasInterrupt`. -/
def hasInterrupt (q : IntQueue) : Bool := !q.isEmpty

/-! ## Base CPU state (`State8080`, 8080emuCPP.h) -/

/-- The five condition-code bits of `ConditionCodes` (the padding bits are
write-only filler in the C++ struct and carry no information). -/
structure ConditionCodes where
  cy : Bool
  p : Bool
  ac : Bool
  z : Bool
  s : Bool
deriving DecidableEq, Repr

/-- `State8080`: register file, SP, PC, flags, interrupt-enable. All byte
registers are values `< 256`, SP and PC are `< 65536`; arithmetic that can
wrap is reduced at the operation. -/
structure State8080 where
  a : Nat
  b : Nat
  c : Nat
  d : Nat
  e : Nat
  h : Nat
  l : Nat
  sp : Nat
  pc : Nat
  cc : ConditionCodes
  int_enable : Nat
deriving DecidableEq, Repr

/-! ## Instruction tracer (`InstructionTracer`) -/

/-- `InstructionTracer::TraceEntry`. -/
structure TraceEntry where
  pc : Nat
  opcode : Nat
  state : State8080
  cycle : Nat
deriving DecidableEq, Repr

/-- `InstructionTracer::addTrace`: push the new entry at the back, then if the
buffer now holds more than `max_entries` entries, erase the first (oldest) one. -/
def addTrace (max_entries : Nat) (trace_buffer : List TraceEntry) (entry : TraceEntry) :
    List TraceEntry :=
  let buf := trace_buffer ++ [entry]
  if buf.length > max_entries then buf.tail else buf

/-! ## Memory bank controller (`MemoryBankController`) -/

/-- `MemoryBankController::BankMapping`. -/
structure BankMapping where
  bank : Nat
  baseAddr : Nat
  size : Nat
  readOnly : Bool
deriving DecidableEq, Repr

/-- `MemoryBankController` state: `banks` (each a byte array of `bankSize`
bytes, zero-initialised by `make_unique<uint8_t[]>`), the current bank index,
the bank size and the mapping table in insertion order. -/
structure MBC where
  banks : List (List Nat)
  currentBank : Nat
  bankSize : Nat
  mappings : List BankMapping
deriving DecidableEq, Repr

/-- `MemoryBankController::MemoryBankController(num_banks, bank_size)`
(defaults 4 and 0x4000): allocates `num_banks` zeroed banks, current bank 0,
empty mapping table. -/
def mkMBC (num_banks bank_size : Nat) : MBC :=
  { banks := List.replicate num_banks (List.replicate bank_size 0)
    currentBank := 0
    bankSize := bank_size
    mappings := [] }

/-- `MemoryBankController::switchBank`: rejects an out-of-range bank number;
otherwise sets `currentBank`. The loop over `mappings` that is meant to
"flush any pending writes in current bank" has an empty body in the source
(only comments), so it has no effect and is not represented. -/
def switchBank (mbc : MBC) (bank : Nat) : Except EmuErr MBC :=
  if bank ≥ mbc.banks.length then
    .error (.memoryAccessViolation "Invalid bank number")
  else
    .ok { mbc with currentBank := bank }

/-- The per-mapping overlap test of `MemoryBankController::mapMemory`:
`(address >= m.baseAddr && address < m.baseAddr + m.size) ||
 (address + bankSize > m.baseAddr && address + bankSize <= m.baseAddr + m.size)`.
All quantities are non-negative and the C++ arithmetic here is carried out in
`int`/`size_t` without wrapping, so plain `Nat` arithmetic is exact. -/
def overlapChk (address bankSize : Nat) (m : BankMapping) : Bool :=
  (decide (address ≥ m.baseAddr) && decide (address < m.baseAddr + m.size)) ||
  (decide (address + bankSize > m.baseAddr) && decide (address + bankSize ≤ m.baseAddr + m.size))

/-- `MemoryBankController::mapMemory(address, bank)`: in source order —
invalid bank check, overlap check against each existing mapping, range check
`address + bankSize > 0xFFFF`, then `push_back` of
`{bank, address, (uint16_t)bankSize, false}` (the size field is narrowed to
16 bits by the cast; `readOnly` is hard-coded `false`). -/
def mapMemory (mbc : MBC) (address bank : Nat) : Except EmuErr MBC :=
  if bank ≥ mbc.banks.length then
    .error (.memoryAccessViolation "Invalid bank number")
  else if mbc.mappings.any (overlapChk address mbc.bankSize) then
    .error (.memoryAccessViolation "Memory mapping overlap")
  else if address + mbc.bankSize > 0xFFFF then
    .error (.memoryAccessViolation "Memory mapping exceeds address space")
  else
    .ok { mbc with mappings :=
            mbc.mappings ++ [⟨bank, address, mbc.bankSize % 65536, false⟩] }

/-- The range test of the resolution loops in `read`/`write`:
`address >= m.baseAddr && address < m.baseAddr + m.size`. -/
def containsAddr (m : BankMapping) (address : Nat) : Bool :=
  decide (m.baseAddr ≤ address) && decide (address < m.baseAddr + m.size)

/-- The `for (const auto& mapping : mappings)` scan shared by `read` and
`write`: the first mapping whose range contains the address, if any. -/
def resolveMapping (mappings : List BankMapping) (address : Nat) : Option BankMapping :=
  match mappings with
  | [] => none
  | m :: rest => if containsAddr m address then some m else resolveMapping rest address

/-- `banks[b][off]` (unchecked `uint8_t[]` indexing in C++; the callers verify
`off < bankSize` first, and on every state built through the public interface
`b` is a valid bank index). -/
def getByte (banks : List (List Nat)) (b off : Nat) : Nat :=
  (banks.getD b []).getD off 0

/-- `banks[b][off] = v`. -/
def setByte (banks : List (List Nat)) (b off v : Nat) : List (List Nat) :=
  banks.set b ((banks.getD b []).set off v)

/-- `MemoryBankController::read`: scan the mapping table in insertion order;
in the first mapping containing the address, compute the bank offset
(`uint16_t bankOffset = address - mapping.baseAddr`, no wrap since the branch
guarantees `address ≥ baseAddr`), reject it if `≥ bankSize`, else return the
byte of the mapped bank. With no containing mapping, reject
`address ≥ bankSize`, else return the byte of the current bank. -/
def mbcRead (mbc : MBC) (address : Nat) : Except EmuErr Nat :=
  match resolveMapping mbc.mappings address with
  | some m =>
    let bankOffset := address - m.baseAddr
    if bankOffset ≥ mbc.bankSize then
      .error (.memoryAccessViolation "Bank offset out of range")
    else
      .ok (getByte mbc.banks m.bank bankOffset)
  | none =>
    if address ≥ mbc.bankSize then
      .error (.memoryAccessViolation "Address out of range")
    else
      .ok (getByte mbc.banks mbc.currentBank address)

/-- `MemoryBankController::write`: same resolution as `read`; a containing
mapping that is read-only is rejected first, then the offset bound is
checked, then the byte is stored. -/
def mbcWrite (mbc : MBC) (address value : Nat) : Except EmuErr MBC :=
  match resolveMapping mbc.mappings address with
  | some m =>
    if m.readOnly then
      .error (.memoryAccessViolation "Write to read-only memory")
    else
      let bankOffset := address - m.baseAddr
      if bankOffset ≥ mbc.bankSize then
        .error (.memoryAccessViolation "Bank offset out of range")
      else
        .ok { mbc with banks := setByte mbc.banks m.bank bankOffset value }
  | none =>
    if address ≥ mbc.bankSize then
      .error (.memoryAccessViolation "Address out of range")
    else
      .ok { mbc with banks := setByte mbc.banks mbc.currentBank address value }

/-- The states of a `MemoryBankController` reachable through its public
interface: constructed with some positive number of banks, then any
sequence of successful `mapMemory`, `switchBank` and `write` calls
(`read` and failed calls do not change the state). -/
inductive MBCReachable : MBC → Prop where
  | init (num_banks bank_size : Nat) (hpos : 0 < num_banks) :
      MBCReachable (mkMBC num_banks bank_size)
  | map {mbc mbc' : MBC} {address bank : Nat} (h : MBCReachable mbc)
      (hok : mapMemory mbc address bank = .ok mbc') : MBCReachable mbc'
  | switch {mbc mbc' : MBC} {bank : Nat} (h : MBCReachable mbc)
      (hok : switchBank mbc bank = .ok mbc') : MBCReachable mbc'
  | write {mbc mbc' : MBC} {address value : Nat} (h : MBCReachable mbc)
      (hok : mbcWrite mbc address value = .ok mbc') : MBCReachable mbc'

/-- Two mappings cover disjoint address ranges (arithmetic form). -/
def mappingsDisjoint (m₁ m₂ : BankMapping) : Prop :=
  m₁.baseAddr + m₁.size ≤ m₂.baseAddr ∨ m₂.baseAddr + m₂.size ≤ m₁.baseAddr ∨
  m₁.size = 0 ∨ m₂.size = 0

instance (m₁ m₂ : BankMapping) : Decidable (mappingsDisjoint m₁ m₂) := by
  unfold mappingsDisjoint; infer_instance

/-- Structural invariant of every reachable `MemoryBankController` state:
well-formed bank storage, every mapping has size `bankSize`, a valid bank
index and `readOnly = false`, and the mapping ranges are pairwise disjoint. -/
def MBCInv (mbc : MBC) : Prop :=
  0 < mbc.banks.length ∧
  mbc.currentBank < mbc.banks.length ∧
  (∀ bl ∈ mbc.banks, bl.length = mbc.bankSize) ∧
  (∀ m ∈ mbc.mappings,
      m.size = mbc.bankSize ∧ m.bank < mbc.banks.length ∧ m.readOnly = false) ∧
  mbc.mappings.Pairwise mappingsDisjoint

instance (mbc : MBC) : Decidable (MBCInv mbc) := by
  unfold MBCInv; infer_instance

/-! ## Instruction metadata table (`DecodedInstruction`, `createInstructionTable`) -/

/-- `DecodedInstruction`: length in bytes, base cycle count, whether the
instruction affects flags, whether it accesses memory. -/
structure DecodedInstruction where
  length : Nat
  cycles : Nat
  affects_flags : Bool
  memory_access : Bool
deriving DecidableEq, Repr

/-- The default entry `{1, 4, false, false}` every slot is initialised with. -/
def defaultInstr : DecodedInstruction := ⟨1, 4, false, false⟩

/-- The scalar `table[..] = {..}` assignments of `createInstructionTable`
preceding the register-move loop, in source order. -/
def tableScalarA : List (Nat × DecodedInstruction) :=
  [ (0x00, ⟨1, 4, false, false⟩), (0x01, ⟨3, 10, false, false⟩),
    (0x02, ⟨1, 7, false, true⟩),  (0x03, ⟨1, 5, false, false⟩),
    (0x04, ⟨1, 5, true, false⟩),  (0x05, ⟨1, 5, true, false⟩),
    (0x06, ⟨2, 7, false, false⟩), (0x07, ⟨1, 4, true, false⟩),
    (0x08, ⟨1, 4, false, false⟩), (0x09, ⟨1, 10, false, false⟩),
    (0x0A, ⟨1, 7, false, true⟩),  (0x0B, ⟨1, 5, false, false⟩),
    (0x0C, ⟨1, 5, true, false⟩),  (0x0D, ⟨1, 5, true, false⟩),
    (0x0E, ⟨2, 7, false, false⟩), (0x0F, ⟨1, 4, true, false⟩),
    (0x11, ⟨3, 10, false, false⟩), (0x12, ⟨1, 7, false, true⟩),
    (0x13, ⟨1, 5, false, false⟩),  (0x14, ⟨1, 5, true, false⟩),
    (0x15, ⟨1, 5, true, false⟩),   (0x16, ⟨2, 7, false, false⟩),
    (0x17, ⟨1, 4, true, false⟩),
    (0x21, ⟨3, 10, false, false⟩), (0x22, ⟨3, 16, false, true⟩),
    (0x23, ⟨1, 5, false, false⟩),  (0x24, ⟨1, 5, true, false⟩),
    (0x25, ⟨1, 5, true, false⟩),   (0x26, ⟨2, 7, false, false⟩),
    (0x27, ⟨1, 4, true, false⟩),
    (0x31, ⟨3, 10, false, false⟩), (0x32, ⟨3, 13, false, true⟩),
    (0x33, ⟨1, 5, false, false⟩),  (0x34, ⟨1, 10, true, true⟩),
    (0x35, ⟨1, 10, true, true⟩),   (0x36, ⟨2, 10, false, true⟩),
    (0x37, ⟨1, 4, true, false⟩) ]

/-- The loop `for (i = 0x40; i <= 0x7F; i++)`:
`isMemoryOp = ((i & 0x07) == 0x06) || ((i & 0x3F) == 0x36)`;
entry `{1, isMemoryOp ? 7 : 5, false, isMemoryOp}`. -/
def tableMovRange : List (Nat × DecodedInstruction) :=
  (List.range 64).map (fun k =>
    let i := 0x40 + k
    let isMemoryOp := decide (i % 8 = 6) || decide (i % 64 = 0x36)
    (i, ⟨1, if isMemoryOp then 7 else 5, false, isMemoryOp⟩))

/-- The eight loops covering `0x80`–`0xBF` (arithmetic and logical groups):
each sets `isMemoryOp = (i & 0x07) == 0x06` and entry
`{1, isMemoryOp ? 7 : 4, true, isMemoryOp}`; the loops share this formula so
they are rendered as one range. -/
def tableAluRange : List (Nat × DecodedInstruction) :=
  (List.range 64).map (fun k =>
    let i := 0x80 + k
    let isMemoryOp := decide (i % 8 = 6)
    (i, ⟨1, if isMemoryOp then 7 else 4, true, isMemoryOp⟩))

/-- The scalar assignments after the loops (branch group, I/O and specials),
in source order. `0xCB` is never assigned and keeps the default entry. -/
def tableScalarB : List (Nat × DecodedInstruction) :=
  [ (0xC0, ⟨1, 11, false, false⟩), (0xC1, ⟨1, 10, false, false⟩),
    (0xC2, ⟨3, 10, false, false⟩), (0xC3, ⟨3, 10, false, false⟩),
    (0xC4, ⟨3, 17, false, false⟩), (0xC5, ⟨1, 11, false, false⟩),
    (0xC6, ⟨2, 7, true, false⟩),   (0xC7, ⟨1, 11, false, false⟩),
    (0xC8, ⟨1, 11, false, false⟩), (0xC9, ⟨1, 10, false, false⟩),
    (0xCA, ⟨3, 10, false, false⟩), (0xCC, ⟨3, 17, false, false⟩),
    (0xCD, ⟨3, 17, false, false⟩), (0xCE, ⟨2, 7, true, false⟩),
    (0xCF, ⟨1, 11, false, false⟩),
    (0xD3, ⟨2, 10, false, false⟩), (0xDB, ⟨2, 10, false, false⟩),
    (0xE3, ⟨1, 18, false, false⟩), (0xE9, ⟨1, 5, false, false⟩),
    (0xEB, ⟨1, 5, false, false⟩),  (0xF3, ⟨1, 4, false, false⟩),
    (0xFB, ⟨1, 4, false, false⟩) ]

/-- `INSTRUCTION_TABLE = createInstructionTable()`: 256 default entries, then
the assignments applied in source order. -/
def INSTRUCTION_TABLE : List DecodedInstruction :=
  (tableScalarA ++ tableMovRange ++ tableAluRange ++ tableScalarB).foldl
    (fun t ie => t.set ie.1 ie.2) (List.replicate 256 defaultInstr)

/-- `INSTRUCTION_TABLE[opcode]` (the index is a `uint8_t`, always in range). -/
def itab (opcode : Nat) : DecodedInstruction :=
  INSTRUCTION_TABLE.getD opcode defaultInstr

/-! ## Memory cache (`MemoryCache`) -/

/-- `MemoryCache::CacheEntry`. -/
structure CacheEntry where
  address : Nat
  value : Nat
  valid : Bool
  dirty : Bool
deriving DecidableEq, Repr

/-- The guest-visible backing store (`MemoryBase::at`), total over addresses. -/
abbrev Mem := Nat → Nat

/-- `MemoryCache::flush`: walk the 256 entries in index order; each valid
dirty entry is written back to the backing store and marked clean. -/
def flushCache : List CacheEntry → Mem → List CacheEntry × Mem
  | [], mem => ([], mem)
  | e :: rest, mem =>
    if e.valid && e.dirty then
      let mem' : Mem := fun a => if a = e.address then e.value else mem a
      let (c, m) := flushCache rest mem'
      ({ e with dirty := false } :: c, m)
    else
      let (c, m) := flushCache rest mem
      (e :: c, m)

/-! ## Enhanced CPU step (`EnhancedCPU8080::Emulate8080p`) -/

/-- `EnhancedCPU8080::CachedInstruction`. -/
structure CachedInstruction where
  length : Nat
  cycles : Nat
  affects_flags : Bool
  result_a : Nat
  result_b : Nat
  result_c : Nat
  result_d : Nat
  result_e : Nat
  result_h : Nat
  result_l : Nat
deriving DecidableEq, Repr

/-- `instructionCache.find(pc)` over the association-list rendering of the
`unordered_map<uint16_t, CachedInstruction>`. -/
def cacheLookup (cache : List (Nat × CachedInstruction)) (pc : Nat) :
    Option CachedInstruction :=
  match cache with
  | [] => none
  | (k, v) :: rest => if k = pc then some v else cacheLookup rest pc

/-- `instructionCache[key] = cached`: replaces the entry at an existing key,
otherwise adds one. -/
def cacheInsert (cache : List (Nat × CachedInstruction)) (pc : Nat)
    (v : CachedInstruction) : List (Nat × CachedInstruction) :=
  match cache with
  | [] => [(pc, v)]
  | (k, w) :: rest =>
    if k = pc then (pc, v) :: rest else (k, w) :: cacheInsert rest pc v

/-- The state touched by `EnhancedCPU8080::Emulate8080p`: the `State8080`,
the backing memory, the instruction cache, the byte cache and its flush
counter, the tracer (enabled flag and buffer, `max_entries` left at its
default 1000 since `setMaxEntries` is never called), and the base-class
members `scheduler_timer`, `quantum` and the interrupt controller queue.
The profiler only accumulates its own per-opcode counters and is omitted. -/
structure EnhState where
  st : State8080
  mem : Mem
  instructionCache : List (Nat × CachedInstruction)
  memoryCache : List CacheEntry
  cacheFlushCounter : Nat
  tracingEnabled : Bool
  traceBuf : List TraceEntry
  scheduler_timer : Nat
  quantum : Nat
  intQueue : IntQueue

/-- The type of one base-interpreter step.

Modelled from the spec: the body of `CPU8080::Emulate8080p` is not under
src/ (only its declaration in 8080emuCPP.h and its callers are). Per spec
§4.7 its debug flag is purely observational ("must not change control
flow"), so a base step is a debug-independent function from `State8080` and
memory to (cycle count, new state, new memory); per the spec's design note
(§9, open questions) it never increments `scheduler_timer`, which is
therefore not part of its domain. -/
abbrev BaseStep := State8080 → Mem → Nat × State8080 × Mem

/-- `EnhancedCPU8080::Emulate8080p(debug)` over a base step.

Source structure (emulator_enhanced.cpp, lines 573–654): read the opcode
pointer at the entry PC; when `debug` is zero and the instruction cache has
an entry for PC whose `affects_flags` is false and whose opcode (per
`INSTRUCTION_TABLE`) does not access memory, replay the cached register
results, advance PC by the cached length (16-bit wrap) and return the
cached cycle count, touching nothing else. Otherwise run the base
interpreter; then, when `debug` is zero and the cache holds fewer than 1024
entries, store the post-state registers under key `pc' - length` (16-bit
wrap, `length` and `affects_flags` taken from the table at the byte now in
memory at the entry PC, the cycle count narrowed to `uint8_t`); then record
a trace entry if tracing is on; then increment `cacheFlushCounter` and at
1000 flush the byte cache and reset the counter. The profiler calls record
only profiler-internal counters. -/
def enhancedStep (baseStep : BaseStep) (debug : Bool) (es : EnhState) :
    Nat × EnhState :=
  let pc0 := es.st.pc
  let fastHit : Option CachedInstruction :=
    if debug then none
    else
      match cacheLookup es.instructionCache pc0 with
      | some cached =>
        if !cached.affects_flags && !(itab (es.mem pc0)).memory_access then
          some cached
        else none
      | none => none
  match fastHit with
  | some cached =>
    let st' := { es.st with
      a := cached.result_a, b := cached.result_b, c := cached.result_c,
      d := cached.result_d, e := cached.result_e, h := cached.result_h,
      l := cached.result_l, pc := (es.st.pc + cached.length) % 65536 }
    (cached.cycles, { es with st := st' })
  | none =>
    let (current_cycle, st', mem') := baseStep es.st es.mem
    let cache' :=
      if !debug && es.instructionCache.length < 1024 then
        let len := (itab (mem' pc0)).length
        cacheInsert es.instructionCache ((st'.pc + 65536 - len) % 65536)
          ⟨len, current_cycle % 256, (itab (mem' pc0)).affects_flags,
           st'.a, st'.b, st'.c, st'.d, st'.e, st'.h, st'.l⟩
      else es.instructionCache
    let traceBuf' :=
      if es.tracingEnabled then
        addTrace 1000 es.traceBuf ⟨st'.pc, mem' pc0, st', current_cycle⟩
      else es.traceBuf
    let counter := es.cacheFlushCounter + 1
    if counter ≥ 1000 then
      let (mc', mem'') := flushCache es.memoryCache mem'
      (current_cycle,
       { es with st := st', mem := mem'', instructionCache := cache',
                 memoryCache := mc', cacheFlushCounter := 0,
                 traceBuf := traceBuf' })
    else
      (current_cycle,
       { es with st := st', mem := mem', instructionCache := cache',
                 cacheFlushCounter := counter, traceBuf := traceBuf' })

/-- Modelled from the spec: a concrete fragment of the base interpreter used
to evaluate the enhanced step at concrete inputs, covering NOP (0x00: one
byte, 4 cycles) and MOV B,A (0x47: one byte, 5 cycles, copies A into B) per
spec §4.4; every other opcode is treated as NOP by this fragment. -/
def miniBase : BaseStep := fun st mem =>
  let op := mem st.pc
  if op = 0x47 then
    (5, { st with b := st.a, pc := (st.pc + 1) % 65536 }, mem)
  else
    (4, { st with pc := (st.pc + 1) % 65536 }, mem)

/-- The condition under which `Emulate8080p`'s non-debug fast path fires:
the instruction cache holds an entry for the current PC whose
`affects_flags` is false and whose opcode does not access memory. -/
def fastPathEnabled (es : EnhState) : Bool :=
  match cacheLookup es.instructionCache es.st.pc with
  | some cached => !cached.affects_flags && !(itab (es.mem es.st.pc)).memory_access
  | none => false

/-- A concrete enhanced-CPU state for evaluating the step function: A=2, B=0,
PC=16, memory filled with opcode 0x47 (MOV B,A), empty instruction cache,
cold byte cache, scheduler timer 0, default quantum 80, no interrupts. -/
def probeState : EnhState :=
  { st := { a := 2, b := 0, c := 0, d := 0, e := 0, h := 0, l := 0, sp := 0, pc := 16,
            cc := ⟨false, false, false, false, false⟩, int_enable := 0 }
    mem := fun _ => 0x47
    instructionCache := []
    memoryCache := List.replicate 256 ⟨0, 0, false, false⟩
    cacheFlushCounter := 0
    tracingEnabled := false
    traceBuf := []
    scheduler_timer := 0
    quantum := 80
    intQueue := [] }

/-- `probeState` with an instruction-cache entry for PC 16 recorded from an
earlier execution of MOV B,A when A was 1 (post-state A=1, B=1, so
`result_a = result_b = 1`), now stale because A is 2. Such an entry arises by
executing MOV B,A at this PC with A=1 and later returning to the same PC
with A=2. -/
def staleCacheState : EnhState :=
  { probeState with instructionCache := [(16, ⟨1, 5, false, 1, 1, 0, 0, 0, 0, 0⟩)] }

/-! ## Helper lemmas -/

theorem getD_set_self {α : Type} (d : α) :
    ∀ (l : List α) (i : Nat) (x : α), i < l.length → (l.set i x).getD i d = x := by
  intro l
  induction l with
  | nil => intro i x h; simp at h
  | cons a t ih =>
    intro i x h
    cases i with
    | zero => simp
    | succ n =>
      have hs : (a :: t).set (n + 1) x = a :: t.set n x := rfl
      have hg : (a :: t.set n x).getD (n + 1) d = (t.set n x).getD n d := rfl
      rw [hs, hg]
      exact ih n x (by simpa using Nat.lt_of_succ_lt_succ h)

theorem getD_mem {α : Type} (d : α) : ∀ (l : List α) (i : Nat), i < l.length →
    l.getD i d ∈ l := by
  intro l
  induction l with
  | nil => intro i h; simp at h
  | cons a t ih =>
    intro i h
    cases i with
    | zero => simp
    | succ n =>
      have hg : (a :: t).getD (n + 1) d = t.getD n d := rfl
      rw [hg]
      exact List.mem_cons_of_mem a (ih n (by simpa using Nat.lt_of_succ_lt_succ h))

/-- Folding `addTrace` keeps exactly the suffix of the pushed entries that
fits in the bound (induction over the pushed entries, generalising the
starting buffer). -/
theorem addTrace_foldl (max_entries : Nat) :
    ∀ (es buf : List TraceEntry), buf.length ≤ max_entries →
      es.foldl (addTrace max_entries) buf =
        (buf ++ es).drop (buf.length + es.length - max_entries) := by
  intro es
  induction es with
  | nil =>
    intro buf h
    simp [Nat.sub_eq_zero_of_le h]
  | cons e es ih =>
    intro buf h
    simp only [List.foldl_cons]
    by_cases hgt : buf.length + 1 > max_entries
    · have hbuf : buf.length = max_entries := by omega
      have h1 : addTrace max_entries buf e = (buf ++ [e]).tail := by
        simp [addTrace, hgt]
      have hlen : ((buf ++ [e]).tail).length = max_entries := by
        simp [List.length_tail, hbuf]
      rw [h1, ih _ (le_of_eq hlen), hlen]
      have hidx : max_entries + es.length - max_entries = es.length := by omega
      have hidx2 : buf.length + (e :: es).length - max_entries = es.length + 1 := by
        simp only [List.length_cons]; omega
      rw [hidx, hidx2]
      rw [← List.drop_one (buf ++ [e])]
      have h3 : ((buf ++ [e]).drop 1) ++ es = ((buf ++ [e]) ++ es).drop 1 :=
        (List.drop_append_of_le_length (by simp)).symm
      rw [h3, List.drop_drop]
      have h4 : (buf ++ [e]) ++ es = buf ++ e :: es := by simp
      rw [h4, Nat.add_comm 1 es.length]
    · have h1 : addTrace max_entries buf e = buf ++ [e] := by
        simp only [addTrace]
        rw [if_neg]
        intro hc
        simp only [List.length_append, List.length_cons, List.length_nil] at hc
        omega
      have h2 : (buf ++ [e]).length ≤ max_entries := by
        simp only [List.length_append, List.length_cons, List.length_nil]
        omega
      rw [h1, ih _ h2]
      have hl : ((buf ++ [e]) ++ es) = buf ++ (e :: es) := by simp
      rw [hl]
      congr 1
      simp only [List.length_append, List.length_cons, List.length_nil]
      omega

theorem resolveMapping_mem : ∀ (ms : List BankMapping) (a : Nat) (m : BankMapping),
    resolveMapping ms a = some m → m ∈ ms := by
  intro ms
  induction ms with
  | nil => intro a m h; simp [resolveMapping] at h
  | cons x t ih =>
    intro a m h
    simp only [resolveMapping] at h
    by_cases hc : containsAddr x a
    · rw [if_pos hc] at h
      exact Option.some.inj h ▸ List.mem_cons_self x t
    · rw [if_neg hc] at h
      exact List.mem_cons_of_mem x (ih a m h)

theorem resolveMapping_containsAddr : ∀ (ms : List BankMapping) (a : Nat) (m : BankMapping),
    resolveMapping ms a = some m → containsAddr m a = true := by
  intro ms
  induction ms with
  | nil => intro a m h; simp [resolveMapping] at h
  | cons x t ih =>
    intro a m h
    simp only [resolveMapping] at h
    by_cases hc : containsAddr x a
    · rw [if_pos hc] at h
      rw [← Option.some.inj h]
      exact hc
    · rw [if_neg hc] at h
      exact ih a m h

/-- The source's resolution loop is exactly "first mapping (in insertion
order) whose range contains the address". -/
theorem resolveMapping_eq_find : ∀ (ms : List BankMapping) (a : Nat),
    resolveMapping ms a = ms.find? (fun m => containsAddr m a) := by
  intro ms
  induction ms with
  | nil => intro a; rfl
  | cons x t ih =>
    intro a
    simp only [resolveMapping, List.find?_cons]
    by_cases hc : containsAddr x a
    · rw [if_pos hc, hc]
    · rw [if_neg hc]
      rw [Bool.not_eq_true] at hc
      rw [hc]
      exact ih a

/-- The source's two-disjunct overlap test agrees with the existence of a
commonly covered address, for a candidate range of the same size as the
mapping's (which is the case for every mapping built by `mapMemory`). -/
theorem overlapChk_iff_intersect (address S : Nat) (m : BankMapping) (hsz : m.size = S) :
    overlapChk address S m = true ↔
      ∃ x, (address ≤ x ∧ x < address + S) ∧
        (m.baseAddr ≤ x ∧ x < m.baseAddr + m.size) := by
  rw [hsz]
  unfold overlapChk
  rw [hsz]
  constructor
  · intro h
    simp only [Bool.or_eq_true, Bool.and_eq_true, decide_eq_true_eq] at h
    rcases h with ⟨h1, h2⟩ | ⟨h1, h2⟩
    · exact ⟨address, by omega, by omega⟩
    · exact ⟨m.baseAddr, by omega, by omega⟩
  · rintro ⟨x, ⟨hx1, hx2⟩, hx3, hx4⟩
    simp only [Bool.or_eq_true, Bool.and_eq_true, decide_eq_true_eq]
    omega

theorem overlapChk_false_disjoint (address S : Nat) (m : BankMapping) (hsz : m.size = S)
    (h : overlapChk address S m = false) :
    mappingsDisjoint m ⟨0, address, S, false⟩ := by
  unfold overlapChk at h
  rw [hsz] at h
  simp only [Bool.or_eq_false_iff, Bool.and_eq_false_iff, decide_eq_false_iff_not] at h
  unfold mappingsDisjoint
  simp only
  omega

/-- Success shape of `mapMemory`: all three checks passed and the new
mapping was appended. -/
theorem mapMemory_ok_shape {mbc mbc' : MBC} {address bank : Nat}
    (hok : mapMemory mbc address bank = .ok mbc') :
    bank < mbc.banks.length ∧
    (∀ m ∈ mbc.mappings, overlapChk address mbc.bankSize m = false) ∧
    address + mbc.bankSize ≤ 0xFFFF ∧
    mbc' = { mbc with mappings :=
      mbc.mappings ++ [⟨bank, address, mbc.bankSize % 65536, false⟩] } := by
  unfold mapMemory at hok
  by_cases h1 : bank ≥ mbc.banks.length
  · rw [if_pos h1] at hok; exact absurd hok (by simp)
  · rw [if_neg h1] at hok
    by_cases h2 : mbc.mappings.any (overlapChk address mbc.bankSize)
    · rw [if_pos h2] at hok; exact absurd hok (by simp)
    · rw [if_neg h2] at hok
      by_cases h3 : address + mbc.bankSize > 0xFFFF
      · rw [if_pos h3] at hok; exact absurd hok (by simp)
      · rw [if_neg h3] at hok
        refine ⟨by omega, ?_, by omega, (Except.ok.inj hok).symm⟩
        intro m hm
        cases hov : overlapChk address mbc.bankSize m with
        | false => rfl
        | true => exact absurd (List.any_eq_true.mpr ⟨m, hm, hov⟩) h2

theorem mkMBC_inv (n s : Nat) (h : 0 < n) : MBCInv (mkMBC n s) := by
  unfold MBCInv mkMBC
  refine ⟨by simpa using h, by simpa using h, ?_, by simp, by simp⟩
  intro bl hbl
  simp only at hbl
  rw [List.eq_of_mem_replicate hbl]
  simp

theorem MBCInv_map {mbc mbc' : MBC} {address bank : Nat}
    (hinv : MBCInv mbc) (hok : mapMemory mbc address bank = .ok mbc') : MBCInv mbc' := by
  obtain ⟨hb, hov, hrange, heq⟩ := mapMemory_ok_shape hok
  obtain ⟨hpos, hcur, hbanks, hmaps, hpair⟩ := hinv
  subst heq
  have hmod : mbc.bankSize % 65536 = mbc.bankSize := Nat.mod_eq_of_lt (by omega)
  refine ⟨hpos, hcur, hbanks, ?_, ?_⟩
  · intro m hm
    rcases List.mem_append.mp hm with hmem | hnew
    · exact hmaps m hmem
    · have hmeq : m = ⟨bank, address, mbc.bankSize % 65536, false⟩ := by simpa using hnew
      subst hmeq
      exact ⟨by simpa using hmod, hb, rfl⟩
  · rw [List.pairwise_append]
    refine ⟨hpair, by simp, ?_⟩
    intro m hm m' hm'
    have hmeq : m' = ⟨bank, address, mbc.bankSize % 65536, false⟩ := by simpa using hm'
    subst hmeq
    have hd := overlapChk_false_disjoint address mbc.bankSize m (hmaps m hm).1 (hov m hm)
    unfold mappingsDisjoint at hd ⊢
    simp only at hd ⊢
    omega

theorem MBCInv_switch {mbc mbc' : MBC} {bank : Nat}
    (hinv : MBCInv mbc) (hok : switchBank mbc bank = .ok mbc') : MBCInv mbc' := by
  unfold switchBank at hok
  by_cases h1 : bank ≥ mbc.banks.length
  · rw [if_pos h1] at hok; exact absurd hok (by simp)
  · rw [if_neg h1] at hok
    obtain ⟨hpos, hcur, hbanks, hmaps, hpair⟩ := hinv
    rw [← Except.ok.inj hok]
    exact ⟨hpos, by simpa using Nat.lt_of_not_le (by omega), hbanks, hmaps, hpair⟩

/-- Success shape of `write`: either the first containing mapping was
writable and its bank byte was set, or no mapping contained the address and
the current bank byte was set. -/
theorem mbcWrite_ok_shape {mbc : MBC} {a v : Nat} {mbc' : MBC}
    (hok : mbcWrite mbc a v = .ok mbc') :
    (∃ m, resolveMapping mbc.mappings a = some m ∧ m.readOnly = false ∧
        a - m.baseAddr < mbc.bankSize ∧
        mbc' = { mbc with banks := setByte mbc.banks m.bank (a - m.baseAddr) v }) ∨
    (resolveMapping mbc.mappings a = none ∧ a < mbc.bankSize ∧
        mbc' = { mbc with banks := setByte mbc.banks mbc.currentBank a v }) := by
  unfold mbcWrite at hok
  split at hok
  next m hr =>
    split at hok
    · exact absurd hok (by simp)
    next hro =>
      simp only [] at hok
      split at hok
      · exact absurd hok (by simp)
      next hoff =>
        exact Or.inl ⟨m, hr, Bool.eq_false_iff.mpr hro, by omega,
          (Except.ok.inj hok).symm⟩
  next hr =>
    split at hok
    · exact absurd hok (by simp)
    next ha =>
      exact Or.inr ⟨hr, by omega, (Except.ok.inj hok).symm⟩

theorem setByte_preserves {banks : List (List Nat)} {bankSize b off v : Nat}
    (hlen : ∀ bl ∈ banks, bl.length = bankSize) (hb : b < banks.length) :
    (setByte banks b off v).length = banks.length ∧
    ∀ bl ∈ setByte banks b off v, bl.length = bankSize := by
  unfold setByte
  refine ⟨List.length_set _ _ _, ?_⟩
  intro bl hbl
  rcases List.mem_or_eq_of_mem_set hbl with hmem | heq
  · exact hlen bl hmem
  · rw [heq, List.length_set]
    exact hlen _ (getD_mem [] banks b hb)

theorem MBCInv_write {mbc mbc' : MBC} {a v : Nat}
    (hinv : MBCInv mbc) (hok : mbcWrite mbc a v = .ok mbc') : MBCInv mbc' := by
  obtain ⟨hpos, hcur, hbanks, hmaps, hpair⟩ := hinv
  rcases mbcWrite_ok_shape hok with ⟨m, hr, hro, hoff, heq⟩ | ⟨hr, ha, heq⟩
  · have hmem := resolveMapping_mem mbc.mappings a m hr
    have hb : m.bank < mbc.banks.length := (hmaps m hmem).2.1
    obtain ⟨hlen, hall⟩ :=
      @setByte_preserves mbc.banks mbc.bankSize m.bank (a - m.baseAddr) v hbanks hb
    subst heq
    refine ⟨by dsimp only; omega, by dsimp only; omega, hall, ?_, hpair⟩
    intro m1 hm1
    obtain ⟨h1, h2, h3⟩ := hmaps m1 hm1
    exact ⟨h1, by dsimp only; omega, h3⟩
  · obtain ⟨hlen, hall⟩ :=
      @setByte_preserves mbc.banks mbc.bankSize mbc.currentBank a v hbanks hcur
    subst heq
    refine ⟨by dsimp only; omega, by dsimp only; omega, hall, ?_, hpair⟩
    intro m1 hm1
    obtain ⟨h1, h2, h3⟩ := hmaps m1 hm1
    exact ⟨h1, by dsimp only; omega, h3⟩

/-- Every state reachable through the public interface satisfies the
structural invariant. -/
theorem reachable_inv {mbc : MBC} (h : MBCReachable mbc) : MBCInv mbc := by
  induction h with
  | init n s hpos => exact mkMBC_inv n s hpos
  | map h hok ih => exact MBCInv_map ih hok
  | switch h hok ih => exact MBCInv_switch ih hok
  | write h hok ih => exact MBCInv_write ih hok

theorem getByte_setByte {banks : List (List Nat)} {b off v : Nat}
    (hb : b < banks.length) (hoff : off < (banks.getD b []).length) :
    getByte (setByte banks b off v) b off = v := by
  unfold getByte setByte
  rw [getD_set_self [] banks b _ hb]
  exact getD_set_self 0 _ off v hoff

/-! ## Claim theorems -/

/-- C1 (counter-evidence): the claim says `getNextInterrupt` returns a
pending request of maximal priority, so that requests at distinct priorities
are delivered in decreasing priority order. The controller's queue is a
plain FIFO: after queueing vector 1 at priority 0 and then vector 2 at
priority 5, `getNextInterrupt` returns the priority-0 request even though a
pending priority-5 request (still in the remaining queue) exists — the
priority field is never consulted, contradicting the header's own
documentation ("Priority-based interrupt controller", "higher = more
priority"). -/
theorem getNextInterrupt_fifo_ignores_priority :
    (getNextInterrupt (queueInterrupt (queueInterrupt [] 1 0) 2 5) =
      .ok (⟨1, 0, true⟩, [⟨2, 5, true⟩])) ∧
    ∀ r ∈ queueInterrupt (queueInterrupt [] 1 0) 2 5, r.pending = true :=
  ⟨rfl, by decide⟩

/-- C2 (amended): one step of `EnhancedCPU8080::Emulate8080p` with debug on
and with debug off yields the same cycle count and the same CPU state
(registers, flags, PC, SP) PROVIDED the instruction cache holds no
fast-path-enabling entry for the current PC (in particular, whenever it
holds no entry for the current PC at all); the base interpreter step is
debug-independent per spec §4.7. The unrestricted claim, covering states
whose cache holds an entry for the current PC, is refuted by
`emulate_debug_flag_changes_result`. -/
theorem emulate_debug_flag_observational_without_fast_path
    (baseStep : BaseStep) (es : EnhState) (h : fastPathEnabled es = false) :
    (enhancedStep baseStep true es).1 = (enhancedStep baseStep false es).1 ∧
    (enhancedStep baseStep true es).2.st = (enhancedStep baseStep false es).2.st := by
  have hnone : (match cacheLookup es.instructionCache es.st.pc with
      | some cached =>
        if (!cached.affects_flags && !(itab (es.mem es.st.pc)).memory_access) = true then
          some cached
        else none
      | none => none) = (none : Option CachedInstruction) := by
    unfold fastPathEnabled at h
    cases hc : cacheLookup es.instructionCache es.st.pc with
    | none => rfl
    | some cached =>
      rw [hc] at h
      have h' : (!cached.affects_flags &&
          !(itab (es.mem es.st.pc)).memory_access) = false := h
      simp [h']
  simp only [enhancedStep, Bool.false_eq_true, if_false, if_true]
  rw [hnone]
  rcases hbs : baseStep es.st es.mem with ⟨cyc, st', mem'⟩
  simp only [hbs]
  by_cases hcnt : es.cacheFlushCounter + 1 ≥ 1000
  · rcases hfc : flushCache es.memoryCache mem' with ⟨mc', mem''⟩
    simp only [if_pos hcnt, hfc]
    constructor <;> trivial
  · simp only [if_neg hcnt]
    constructor <;> trivial

/-- C2 witness: the amended theorem applied at `probeState` (empty
instruction cache). -/
theorem emulate_debug_flag_observational_witness :
    fastPathEnabled probeState = false ∧
    (enhancedStep miniBase true probeState).1 =
      (enhancedStep miniBase false probeState).1 ∧
    (enhancedStep miniBase true probeState).2.st =
      (enhancedStep miniBase false probeState).2.st :=
  ⟨by decide, emulate_debug_flag_observational_without_fast_path miniBase probeState
    (by decide)⟩

set_option maxRecDepth 40000 in
/-- C2 (counterexample to the claim as stated): at `staleCacheState` — whose
instruction cache holds an entry for the current PC, a case the claim
explicitly includes — the debug run executes MOV B,A (B becomes A = 2),
while the non-debug run takes the fast path and replays the stale cached
B = 1, so the two runs produce different CPU states. -/
theorem emulate_debug_flag_changes_result :
    (enhancedStep miniBase true staleCacheState).2.st ≠
      (enhancedStep miniBase false staleCacheState).2.st ∧
    (enhancedStep miniBase true staleCacheState).2.st.b = 2 ∧
    (enhancedStep miniBase false staleCacheState).2.st.b = 1 := by
  refine ⟨?_, by decide, by decide⟩
  intro hcontra
  have h2 : (enhancedStep miniBase true staleCacheState).2.st.b = 2 := by decide
  have h1 : (enhancedStep miniBase false staleCacheState).2.st.b = 1 := by decide
  rw [hcontra, h1] at h2
  exact absurd h2 (by decide)

/-- C3: on an invariant-satisfying controller state, `mapMemory` raises
`MemoryAccessViolation` exactly when the bank number is out of range, or
`address + bankSize` passes 0xFFFF, or the new range `[address,
address + bankSize)` shares an address with an existing mapping; on success
the new mapping (size `bankSize`, read-write) is appended, nothing else
changes, and the resulting table covers every guest address at most once.
(All throw sites precede the `push_back`, so a raising call leaves the
table unchanged — in this embedding an `.error` result carries no state
change by construction.) -/
theorem mapMemory_error_iff_and_disjoint (mbc : MBC) (address bank : Nat)
    (hinv : MBCInv mbc) :
    ((∃ msg, mapMemory mbc address bank = .error (.memoryAccessViolation msg)) ↔
      (mbc.banks.length ≤ bank ∨ 0xFFFF < address + mbc.bankSize ∨
        ∃ m ∈ mbc.mappings, ∃ x, (address ≤ x ∧ x < address + mbc.bankSize) ∧
          (m.baseAddr ≤ x ∧ x < m.baseAddr + m.size))) ∧
    ∀ mbc', mapMemory mbc address bank = .ok mbc' →
      mbc'.mappings = mbc.mappings ++ [⟨bank, address, mbc.bankSize, false⟩] ∧
      mbc'.banks = mbc.banks ∧ mbc'.currentBank = mbc.currentBank ∧
      mbc'.mappings.Pairwise (fun m₁ m₂ => ∀ x,
        ¬((m₁.baseAddr ≤ x ∧ x < m₁.baseAddr + m₁.size) ∧
          (m₂.baseAddr ≤ x ∧ x < m₂.baseAddr + m₂.size))) := by
  constructor
  · unfold mapMemory
    by_cases h1 : bank ≥ mbc.banks.length
    · rw [if_pos h1]
      exact iff_of_true ⟨_, rfl⟩ (Or.inl h1)
    · rw [if_neg h1]
      by_cases h2 : mbc.mappings.any (overlapChk address mbc.bankSize)
      · rw [if_pos h2]
        refine iff_of_true ⟨_, rfl⟩ (Or.inr (Or.inr ?_))
        obtain ⟨m, hm, hov⟩ := List.any_eq_true.mp h2
        exact ⟨m, hm,
          (overlapChk_iff_intersect address mbc.bankSize m (hinv.2.2.2.1 m hm).1).mp hov⟩
      · rw [if_neg h2]
        by_cases h3 : address + mbc.bankSize > 0xFFFF
        · rw [if_pos h3]
          exact iff_of_true ⟨_, rfl⟩ (Or.inr (Or.inl h3))
        · rw [if_neg h3]
          refine iff_of_false (by simp) ?_
          rintro (h | h | ⟨m, hm, hx⟩)
          · omega
          · omega
          · have hov :=
              (overlapChk_iff_intersect address mbc.bankSize m (hinv.2.2.2.1 m hm).1).mpr hx
            exact absurd (List.any_eq_true.mpr ⟨m, hm, hov⟩) h2
  · intro mbc' hok
    have hinv' := MBCInv_map hinv hok
    obtain ⟨hb, hov, hrange, heq⟩ := mapMemory_ok_shape hok
    have hmod : mbc.bankSize % 65536 = mbc.bankSize := Nat.mod_eq_of_lt (by omega)
    subst heq
    refine ⟨by dsimp only; rw [hmod], rfl, rfl, ?_⟩
    exact hinv'.2.2.2.2.imp (fun hd => by
      unfold mappingsDisjoint at hd
      intro x hx
      omega)

/-- C3 witness: the theorem applied to the freshly constructed controller,
mapping bank 1 at base address 8 with bank size 4. -/
theorem mapMemory_error_iff_and_disjoint_witness :
    MBCInv (mkMBC 2 4) ∧
    ({ mkMBC 2 4 with mappings := [⟨1, 8, 4, false⟩] } : MBC).mappings =
      (mkMBC 2 4).mappings ++ [⟨1, 8, 4, false⟩] :=
  ⟨by decide, ((mapMemory_error_iff_and_disjoint (mkMBC 2 4) 8 1 (by decide)).2 _ rfl).1⟩

/-- C4 (counter-evidence): the claim says each executed instruction's cycle
count is added to `scheduler_timer` and at the quantum a scheduler vector is
queued at priority 0. `EnhancedCPU8080::Emulate8080p` never touches
`scheduler_timer` and never queues an interrupt, for every base step, debug
flag and state (the base interpreter's body is absent from src/ and, per the
spec's own design note, never increments the counter either). -/
theorem emulate_never_updates_scheduler_timer
    (baseStep : BaseStep) (debug : Bool) (es : EnhState) :
    (enhancedStep baseStep debug es).2.scheduler_timer = es.scheduler_timer ∧
    (enhancedStep baseStep debug es).2.intQueue = es.intQueue := by
  simp only [enhancedStep]
  split
  · exact ⟨rfl, rfl⟩
  · rcases hbs : baseStep es.st es.mem with ⟨cyc, st', mem'⟩
    simp only [hbs]
    split
    · rcases hfc : flushCache es.memoryCache mem' with ⟨mc', mem''⟩
      simp only [hfc]
      exact ⟨trivial, trivial⟩
    · exact ⟨rfl, rfl⟩

/-- C5: on an invariant-satisfying controller state, `read` and `write`
resolve an address by scanning the mapping table in insertion order (the
loop equals `find?` over the table); the first mapping whose range contains
the address supplies the bank and the offset `address - baseAddr` actually
read or written; with no containing mapping the current bank is used, and
in that fall-through an address `≥ bankSize` raises
`MemoryAccessViolation` for both operations. -/
theorem read_write_resolution_order (mbc : MBC) (address : Nat) (hinv : MBCInv mbc) :
    (resolveMapping mbc.mappings address =
        mbc.mappings.find? (fun m => containsAddr m address)) ∧
    (∀ m, resolveMapping mbc.mappings address = some m →
        mbcRead mbc address = .ok (getByte mbc.banks m.bank (address - m.baseAddr)) ∧
        ∀ value, mbcWrite mbc address value =
          .ok { mbc with banks := setByte mbc.banks m.bank (address - m.baseAddr) value }) ∧
    (resolveMapping mbc.mappings address = none →
        (address < mbc.bankSize →
          mbcRead mbc address = .ok (getByte mbc.banks mbc.currentBank address) ∧
          ∀ value, mbcWrite mbc address value =
            .ok { mbc with banks := setByte mbc.banks mbc.currentBank address value }) ∧
        (mbc.bankSize ≤ address →
          mbcRead mbc address = .error (.memoryAccessViolation "Address out of range") ∧
          ∀ value, mbcWrite mbc address value =
            .error (.memoryAccessViolation "Address out of range"))) := by
  refine ⟨resolveMapping_eq_find _ _, ?_, ?_⟩
  · intro m hr
    have hcont := resolveMapping_containsAddr _ _ _ hr
    have hmem := resolveMapping_mem _ _ _ hr
    have hsz := (hinv.2.2.2.1 m hmem).1
    have hro := (hinv.2.2.2.1 m hmem).2.2
    unfold containsAddr at hcont
    simp only [Bool.and_eq_true, decide_eq_true_eq] at hcont
    have hoff : ¬(address - m.baseAddr ≥ mbc.bankSize) := by omega
    constructor
    · unfold mbcRead
      simp only [hr]
      rw [if_neg hoff]
    · intro v
      unfold mbcWrite
      simp only [hr]
      rw [if_neg (show ¬(m.readOnly = true) by simp [hro])]
      rw [if_neg hoff]
  · intro hr
    constructor
    · intro hlt
      have hge : ¬(address ≥ mbc.bankSize) := by omega
      refine ⟨?_, ?_⟩
      · unfold mbcRead
        simp only [hr]
        rw [if_neg hge]
      · intro v
        unfold mbcWrite
        simp only [hr]
        rw [if_neg hge]
    · intro hge
      refine ⟨?_, ?_⟩
      · unfold mbcRead
        simp only [hr]
        rw [if_pos hge]
      · intro v
        unfold mbcWrite
        simp only [hr]
        rw [if_pos hge]

/-- C5 witness: the theorem applied to a controller with a single mapping
`bank 1 at [8, 12)` and address 9, which resolves through that mapping. -/
theorem read_write_resolution_order_witness :
    MBCInv { mkMBC 2 4 with mappings := [⟨1, 8, 4, false⟩] } ∧
    mbcRead { mkMBC 2 4 with mappings := [⟨1, 8, 4, false⟩] } 9 = .ok 0 :=
  ⟨by decide,
    ((read_write_resolution_order { mkMBC 2 4 with mappings := [⟨1, 8, 4, false⟩] } 9
      (by decide)).2.1 ⟨1, 8, 4, false⟩ rfl).1⟩

/-- C6: read-after-write coherence — on an invariant-satisfying controller
state, whenever `write(address, value)` succeeds, a `read(address)` on the
resulting state (no intervening write or bank switch) returns `value`,
through a mapping or in the unmapped fall-through alike. -/
theorem read_after_write (mbc mbc' : MBC) (address value : Nat)
    (hinv : MBCInv mbc) (hok : mbcWrite mbc address value = .ok mbc') :
    mbcRead mbc' address = .ok value := by
  obtain ⟨hpos, hcur, hbanks, hmaps, hpair⟩ := hinv
  rcases mbcWrite_ok_shape hok with ⟨m, hr, hro, hoff, heq⟩ | ⟨hr, ha, heq⟩
  · subst heq
    have hmem := resolveMapping_mem _ _ _ hr
    have hb : m.bank < mbc.banks.length := (hmaps m hmem).2.1
    have hblen : (mbc.banks.getD m.bank []).length = mbc.bankSize :=
      hbanks _ (getD_mem [] mbc.banks m.bank hb)
    unfold mbcRead
    dsimp only
    simp only [hr]
    rw [if_neg (show ¬(address - m.baseAddr ≥ mbc.bankSize) by omega)]
    rw [getByte_setByte hb (by omega)]
  · subst heq
    have hblen : (mbc.banks.getD mbc.currentBank []).length = mbc.bankSize :=
      hbanks _ (getD_mem [] mbc.banks mbc.currentBank hcur)
    unfold mbcRead
    dsimp only
    simp only [hr]
    rw [if_neg (show ¬(address ≥ mbc.bankSize) by omega)]
    rw [getByte_setByte hcur (by omega)]

/-- C6 witness: write 7 at address 1 of a fresh controller, then read it
back. -/
theorem read_after_write_witness :
    MBCInv (mkMBC 2 4) ∧
    mbcRead { mkMBC 2 4 with banks := setByte (mkMBC 2 4).banks 0 1 7 } 1 = .ok 7 :=
  ⟨by decide, read_after_write (mkMBC 2 4) _ 1 7 (by decide) rfl⟩

/-- C7 (counter-evidence): the claim says `switchBank` commits buffered
dirty writes of the outgoing bank before the switch and that the byte cache
is flushed on every bank switch. In the source the commit loop's body is
empty (comments only) and `switchBank` has no access to the byte cache, so
a valid `switchBank` changes the current-bank index and nothing else: banks
and mapping table are untouched and no buffered data reaches backing
storage. (The invalid-bank half of the claim does hold: an out-of-range bank
raises `MemoryAccessViolation` before the assignment.) -/
theorem switchBank_commits_nothing (mbc : MBC) (bank : Nat)
    (h : bank < mbc.banks.length) :
    switchBank mbc bank = .ok { mbc with currentBank := bank } := by
  simp only [switchBank]
  rw [if_neg]
  omega

/-- C7 witness: valid bank switch on a fresh controller. -/
theorem switchBank_commits_nothing_witness :
    1 < (mkMBC 2 4).banks.length ∧
    switchBank (mkMBC 2 4) 1 = .ok { mkMBC 2 4 with currentBank := 1 } :=
  ⟨by decide, switchBank_commits_nothing (mkMBC 2 4) 1 (by decide)⟩

/-- C8: `getNextInterrupt` raises `INVALID_INTERRUPT` if and only if the
queue is empty (the throw precedes the pop, so the queue is untouched — in
this embedding an `.error` carries no state change by construction); on a
non-empty queue it returns the front request together with the remaining
queue, so exactly the returned request is removed. -/
theorem getNextInterrupt_empty_iff_and_pops_front : ∀ q : IntQueue,
    ((∃ msg, getNextInterrupt q = .error (.invalidInterrupt msg)) ↔ q = []) ∧
    (match q with
     | [] => True
     | r :: rest => getNextInterrupt q = .ok (r, rest)) := by
  intro q
  cases q with
  | nil => exact ⟨by simp [getNextInterrupt], trivial⟩
  | cons r rest => exact ⟨by simp [getNextInterrupt], rfl⟩

/-- C9: the trace buffer is bounded — for any configured maximum, after any
sequence of `addTrace` calls starting from the cleared buffer the buffer
holds at most `max_entries` entries, and it holds exactly the most recent
entries in order (the suffix of the pushed sequence: each overflow drops
the oldest entry). -/
theorem trace_buffer_bounded_most_recent :
    ∀ (max_entries : Nat) (entries : List TraceEntry),
      (entries.foldl (addTrace max_entries) []).length ≤ max_entries ∧
      entries.foldl (addTrace max_entries) [] =
        entries.drop (entries.length - max_entries) := by
  intro max es
  have h := addTrace_foldl max es [] (by simp)
  simp only [List.nil_append, List.length_nil, Nat.zero_add] at h
  refine ⟨?_, h⟩
  rw [h, List.length_drop]
  omega

/-- C10: every mapping of a controller state reachable through the public
interface has `readOnly = false` (`mapMemory` hard-codes it and no operation
flips it), so `write` can never raise the read-only
`MemoryAccessViolation`. -/
theorem reachable_mappings_never_readonly (mbc : MBC) (h : MBCReachable mbc) :
    (∀ m ∈ mbc.mappings, m.readOnly = false) ∧
    ∀ address value, mbcWrite mbc address value ≠
      .error (.memoryAccessViolation "Write to read-only memory") := by
  have hinv := reachable_inv h
  refine ⟨fun m hm => (hinv.2.2.2.1 m hm).2.2, ?_⟩
  intro address value hcontra
  unfold mbcWrite at hcontra
  split at hcontra
  next m hr =>
    split at hcontra
    next hro =>
      exact absurd ((hinv.2.2.2.1 m (resolveMapping_mem _ _ _ hr)).2.2)
        (by simp [hro])
    next hro =>
      simp only [] at hcontra
      split at hcontra
      · exact absurd (EmuErr.memoryAccessViolation.inj (Except.error.inj hcontra))
          (by decide)
      · exact absurd hcontra (by simp)
  next hr =>
    split at hcontra
    · exact absurd (EmuErr.memoryAccessViolation.inj (Except.error.inj hcontra))
        (by decide)
    · exact absurd hcontra (by simp)

/-- C10 witness: the theorem applied at the default-configuration controller
(4 banks of 0x4000 bytes), write at address 0. -/
theorem reachable_mappings_never_readonly_witness :
    mbcWrite (mkMBC 4 16384) 0 7 ≠
      .error (.memoryAccessViolation "Write to read-only memory") :=
  (reachable_mappings_never_readonly (mkMBC 4 16384) (.init 4 16384 (by decide))).2 0 7

end I8080
